import Mathlib

/-!
Verification of the `sitebacker_probe_ips` extractor
(`src/sitebacker_probe_ips/main.py`).

The development shallowly embeds the program's core:
* the two regular expressions used to pull IPv4 / IPv6 tokens out of a
  text line, together with Python's `re.findall` scanning discipline
  (leftmost, non-overlapping, greedy, with backtracking and word
  boundaries for the IPv4 pattern);
* `normalize_region_name`;
* `find_table_pages` (page scan for a search phrase);
* `extract_ip_probes` (the per-page / per-line classification fold with
  its stoplist, region cursor, anchor flag and whole-run catch-all);
* the locate-then-extract portion of `main` including the phrase
  priority order and the `"202-203"` fallback.

A document is modelled as a list of pages; each page is `some text`
when the PDF library yields its text and `none` when text extraction
raises, which feeds the catch-and-return-empty error paths.  Text is
`List Char`.  Only the ASCII case folding relevant to the program's
stoplist and search phrases is modelled.
-/

/-- Decimal digit characters, the regex class `[0-9]`
(also used for Python's `str.isdigit` on the ASCII inputs modelled here). -/
def digitChars : List Char := ['0', '1', '2', '3', '4', '5', '6', '7', '8', '9']

/-- Hexadecimal digit characters, the regex class `[0-9a-fA-F]`. -/
def hexChars : List Char :=
  digitChars ++ ['a', 'b', 'c', 'd', 'e', 'f', 'A', 'B', 'C', 'D', 'E', 'F']

/-- The regex class `[01]`. -/
def zeroOne : List Char := ['0', '1']

/-- The regex class `[0-4]`. -/
def zeroFour : List Char := ['0', '1', '2', '3', '4']

/-- The regex class `[0-5]`. -/
def zeroFive : List Char := ['0', '1', '2', '3', '4', '5']

def isDigitChar (c : Char) : Bool := decide (c ∈ digitChars)

def isHexChar (c : Char) : Bool := decide (c ∈ hexChars)

/-- Regex word character (`\w`), restricted to ASCII. -/
def isWordChar (c : Char) : Bool := c.isAlphanum || decide (c = '_')

/-- ASCII whitespace stripped by Python's `str.strip`. -/
def isSpaceChar (c : Char) : Bool :=
  decide (c ∈ [' ', '\t', '\n', '\r', '\x0b', '\x0c'])

/-- Case folding used for the `.lower()` comparisons (ASCII). -/
def lowerStr (s : List Char) : List Char := s.map Char.toLower

/-- `listMatchAt pat s`: `pat` occurs at the very start of `s`. -/
def listMatchAt : List Char → List Char → Bool
  | [], _ => true
  | _ :: _, [] => false
  | a :: as, b :: bs => decide (a = b) && listMatchAt as bs

/-- Python's substring test `needle in hay`. -/
def containsSub (needle : List Char) : List Char → Bool
  | [] => listMatchAt needle []
  | c :: t => if listMatchAt needle (c :: t) then true else containsSub needle t

/-- Python's `str.split(sep)` for a one-character separator. -/
def splitOnChar (sep : Char) : List Char → List (List Char)
  | [] => [[]]
  | c :: t =>
    if c = sep then [] :: splitOnChar sep t
    else
      match splitOnChar sep t with
      | [] => [[c]]
      | l :: ls => (c :: l) :: ls

/-- `text.split('\n')`. -/
def splitLines (text : List Char) : List (List Char) := splitOnChar '\n' text

/-- Python's `str.strip()`. -/
def stripChars (s : List Char) : List Char :=
  ((s.dropWhile isSpaceChar).reverse.dropWhile isSpaceChar).reverse

/-- `k` consecutive integers counting up from `a`. -/
def intRangeAux : Nat → Int → List Int
  | 0, _ => []
  | k + 1, a => a :: intRangeAux k (a + 1)

/-- Python's `range(a, b)` over integers. -/
def intRangeICO (a b : Int) : List Int := intRangeAux (b - a).toNat a

/-- Numeric value of a decimal digit string. -/
def digitsVal (s : List Char) : Nat :=
  s.foldl (fun a c => 10 * a + (c.toNat - 48)) 0

/-- Python's `int(str)` on the string shapes this program feeds it:
optional surrounding whitespace, optional sign, a nonempty digit run. -/
def pyInt (s : List Char) : Option Int :=
  match stripChars s with
  | '-' :: ds =>
    if ds ≠ [] ∧ ds.all isDigitChar then some (-(digitsVal ds : Int)) else none
  | '+' :: ds =>
    if ds ≠ [] ∧ ds.all isDigitChar then some (digitsVal ds : Int) else none
  | ds =>
    if ds ≠ [] ∧ ds.all isDigitChar then some (digitsVal ds : Int) else none

/-!
## The IPv4 regular expression

`\b(?:(?:25[0-5]|2[0-4][0-9]|[01]?[0-9][0-9]?)\.){3}(?:25[0-5]|2[0-4][0-9]|[01]?[0-9][0-9]?)\b`

An octet attempt can succeed in several ways; a backtracking engine
tries them in a fixed preference order.  `octetCands` lists every
possible (consumed, rest) split of the alternation
`25[0-5]|2[0-4][0-9]|[01]?[0-9][0-9]?` in exactly that order.
-/

/-- Splits produced by the alternative `25[0-5]`. -/
def cand25 : List Char → List (List Char × List Char)
  | a :: b :: c :: r =>
    if a = '2' ∧ b = '5' ∧ c ∈ zeroFive then [([a, b, c], r)] else []
  | _ => []

/-- Splits produced by the alternative `2[0-4][0-9]`. -/
def cand2xx : List Char → List (List Char × List Char)
  | a :: b :: c :: r =>
    if a = '2' ∧ b ∈ zeroFour ∧ c ∈ digitChars then [([a, b, c], r)] else []
  | _ => []

/-- `[01]?[0-9][0-9]?` with both optional parts present. -/
def candA : List Char → List (List Char × List Char)
  | a :: b :: c :: r =>
    if a ∈ zeroOne ∧ b ∈ digitChars ∧ c ∈ digitChars then [([a, b, c], r)] else []
  | _ => []

/-- `[01]?[0-9][0-9]?` with the leading `[01]` and no trailing digit. -/
def candB : List Char → List (List Char × List Char)
  | a :: b :: r =>
    if a ∈ zeroOne ∧ b ∈ digitChars then [([a, b], r)] else []
  | _ => []

/-- `[01]?[0-9][0-9]?` without the leading `[01]`, trailing digit taken. -/
def candC : List Char → List (List Char × List Char)
  | a :: b :: r =>
    if a ∈ digitChars ∧ b ∈ digitChars then [([a, b], r)] else []
  | _ => []

/-- `[01]?[0-9][0-9]?` reduced to a single digit. -/
def candD : List Char → List (List Char × List Char)
  | a :: r => if a ∈ digitChars then [([a], r)] else []
  | _ => []

/-- All octet splits, in the engine's backtracking preference order. -/
def octetCands (cs : List Char) : List (List Char × List Char) :=
  cand25 cs ++ cand2xx cs ++ candA cs ++ candB cs ++ candC cs ++ candD cs

/-- First success of `f` over a candidate list (backtracking search). -/
def firstSome : List α → (α → Option β) → Option β
  | [], _ => none
  | a :: as, f =>
    match f a with
    | some b => some b
    | none => firstSome as f

/-- Matches `k` repetitions of `octet '.'` followed by a final octet
and the trailing `\b`, returning (consumed, rest); tries octet splits
in preference order with full backtracking. -/
def matchGroups : Nat → List Char → Option (List Char × List Char)
  | 0, cs =>
    firstSome (octetCands cs) fun p =>
      match p.2 with
      | [] => some (p.1, [])
      | c :: _ => if isWordChar c then none else some (p.1, p.2)
  | k + 1, cs =>
    firstSome (octetCands cs) fun p =>
      match p.2 with
      | '.' :: r2 =>
        match matchGroups k r2 with
        | some (m2, r3) => some (p.1 ++ '.' :: m2, r3)
        | none => none
      | _ => none

/-- Attempt of the full IPv4 pattern at the current position.
`prev` is the character just before the position (`none` at the start
of the line); the leading `\b` rejects a preceding word character. -/
def ipv4MatchAt (prev : Option Char) (cs : List Char) : Option (List Char × List Char) :=
  match prev with
  | some c => if isWordChar c then none else matchGroups 3 cs
  | none => matchGroups 3 cs

/-!
## The IPv6 regular expression

`2610:a1:[0-9a-fA-F]{4}:128::[0-9a-fA-F]{1,3}`
-/

/-- The fixed leading literal `2610:a1:`. -/
def pre6 : List Char := ("2610:a1:".toList)

/-- The fixed middle literal `:128::`. -/
def mid6 : List Char := (":128::".toList)

/-- Consume a literal, returning the rest on success. -/
def stripLit : List Char → List Char → Option (List Char)
  | [], cs => some cs
  | _ :: _, [] => none
  | l :: ls, c :: cs => if c = l then stripLit ls cs else none

/-- Consume exactly `k` hexadecimal digits. -/
def matchHex : Nat → List Char → Option (List Char × List Char)
  | 0, cs => some ([], cs)
  | _ + 1, [] => none
  | k + 1, c :: cs =>
    if isHexChar c then
      match matchHex k cs with
      | some (m, r) => some (c :: m, r)
      | none => none
    else none

/-- Greedily consume up to `k` hexadecimal digits. -/
def takeHexUpTo : Nat → List Char → (List Char × List Char)
  | 0, cs => ([], cs)
  | _ + 1, [] => ([], [])
  | k + 1, c :: cs =>
    if isHexChar c then
      let p := takeHexUpTo k cs
      (c :: p.1, p.2)
    else ([], c :: cs)

/-- Attempt of the full IPv6 pattern at the current position. -/
def ipv6MatchAt (cs : List Char) : Option (List Char × List Char) :=
  match stripLit pre6 cs with
  | none => none
  | some r1 =>
    match matchHex 4 r1 with
    | none => none
    | some (h4, r2) =>
      match stripLit mid6 r2 with
      | none => none
      | some r3 =>
        let p := takeHexUpTo 3 r3
        if p.1 = [] then none else some (pre6 ++ h4 ++ mid6 ++ p.1, p.2)

/-!
## `re.findall`

Leftmost scan: at each position try the pattern; on success emit the
match and resume right after it (non-overlapping), otherwise advance
one character.  The previous character is tracked for `\b`.
-/

/-- The scanning loop, fuelled by the length of the text. -/
def scanAux (m : Option Char → List Char → Option (List Char × List Char)) :
    Nat → Option Char → List Char → List (List Char)
  | 0, _, _ => []
  | fuel + 1, prev, cs =>
    match m prev cs with
    | some (tok, rest) => tok :: scanAux m fuel tok.getLast? rest
    | none =>
      match cs with
      | [] => []
      | c :: t => scanAux m fuel (some c) t

/-- `re.findall(pattern, line)` for a pattern given by a
position-matcher. -/
def reFindall (m : Option Char → List Char → Option (List Char × List Char))
    (line : List Char) : List (List Char) :=
  scanAux m (line.length + 1) none line

/-- `re.findall(ipv4_pattern, line)`. -/
def findIPv4 (line : List Char) : List (List Char) := reFindall ipv4MatchAt line

/-- `re.findall(simple_ipv6_pattern, line)`. -/
def findIPv6 (line : List Char) : List (List Char) :=
  reFindall (fun _ cs => ipv6MatchAt cs) line

/-!
## `normalize_region_name`
-/

/-- Unicode en-dash U+2013. -/
def enDash : Char := Char.ofNat 0x2013

/-- Unicode em-dash U+2014. -/
def emDash : Char := Char.ofNat 0x2014

/-- `region_name.replace('–', '-').replace('—', '-')`. -/
def normalize_region_name (s : List Char) : List Char :=
  (s.map fun c => if c = enDash then '-' else c).map fun c =>
    if c = emDash then '-' else c

/-!
## `extract_ip_probes`
-/

/-- One element of the `extracted_data` list. -/
structure RegionEntry where
  region : List Char
  ipv4 : List (List Char)
  ipv6 : List (List Char)
deriving DecidableEq

/-- The mutable state threaded through the extraction loops. -/
structure EState where
  data : List RegionEntry
  currentRegion : Option (List Char)
  inTable : Bool
deriving DecidableEq

/-- `extracted_data = []`, `current_region = None`,
`in_table_section = False`. -/
def initState : EState := ⟨[], none, false⟩

/-- The `exclude_from_regions` stoplist. -/
def excludeList : List (List Char) :=
  [("ip probes by region".toList), ("available".toList), ("2019".toList),
   ("ipv4".toList), ("ipv6".toList), ("region".toList), ("table".toList),
   ("page".toList), ("ultradns".toList), ("confidential".toList)]

/-- `any(exclude in line_lower for exclude in exclude_from_regions)`. -/
def lineExcluded (lineLower : List Char) : Bool :=
  excludeList.any fun e => containsSub e lineLower

/-- First character of a line is a digit (`line[0].isdigit()`). -/
def headIsDigit : List Char → Bool
  | [] => false
  | c :: _ => isDigitChar c

/-- Merging a line's addresses into an existing entry:
`region_entry["ipv4"].extend([ip for ip in ipv4_addresses if ip not in
region_entry["ipv4"]])`, and likewise for IPv6; the membership filter
is evaluated against the entry's lists before the extension. -/
def extendEntry (e : RegionEntry) (v4 v6 : List (List Char)) : RegionEntry :=
  { e with
    ipv4 := e.ipv4 ++ v4.filter fun ip => decide (ip ∉ e.ipv4)
    ipv6 := e.ipv6 ++ v6.filter fun ip => decide (ip ∉ e.ipv6) }

/-- In-place mutation of the first entry whose region matches
(`next(item for item in extracted_data if item["region"] == ...)`). -/
def updateFirst (nr : List Char) (v4 v6 : List (List Char)) :
    List RegionEntry → List RegionEntry
  | [] => []
  | e :: es =>
    if e.region = nr then extendEntry e v4 v6 :: es
    else e :: updateFirst nr v4 v6 es

/-- The body of `for line in lines`. -/
def processLine (st : EState) (rawLine : List Char) : EState :=
  let line := stripChars rawLine
  if line = [] then st
  else
    let lineLower := lowerStr line
    if lineExcluded lineLower then st
    else
      let v4 := findIPv4 line
      let v6 := findIPv6 line
      if v4 ≠ [] ∨ v6 ≠ [] then
        match st.currentRegion with
        | none => st
        | some cr =>
          let nr := normalize_region_name cr
          if st.data.any (fun e => decide (e.region = nr)) then
            { st with data := updateFirst nr v4 v6 st.data }
          else
            { st with data := st.data ++ [⟨nr, v4, v6⟩] }
      else
        if 1 < line.length ∧ headIsDigit line = false ∧
            lineExcluded lineLower = false then
          { st with currentRegion := some (stripChars line) }
        else st

/-- The anchor phrase `"ip probes by region"`. -/
def anchorStr : List Char := ("ip probes by region".toList)

/-- The per-page body of `for page_num in pages_to_process`: set the
anchor flag, skip the page unless the flag is set, otherwise fold over
its lines. -/
def processPageText (st : EState) (text : List Char) : EState :=
  let st1 :=
    if containsSub anchorStr (lowerStr text) then { st with inTable := true }
    else st
  if st1.inTable = false then st1
  else (splitLines text).foldl processLine st1

/-- The page loop.  Out-of-range page numbers are skipped with a
warning; a page whose text extraction raises aborts the whole run. -/
def pagesLoop (doc : List (Option (List Char))) :
    List Int → EState → Except Unit EState
  | [], st => .ok st
  | n :: ns, st =>
    if (doc.length : Int) ≤ n ∨ n < 0 then pagesLoop doc ns st
    else
      match doc.get? n.toNat with
      | none => pagesLoop doc ns st
      | some none => .error ()
      | some (some t) => pagesLoop doc ns (processPageText st t)

/-- The `pages` argument: either a `"start-end"` string or a list of
1-indexed page numbers. -/
inductive PagesArg where
  | str : List Char → PagesArg
  | list : List Int → PagesArg

/-- String form: `pages.split("-")`, `int(...) - 1` on the first (and
second, when present) piece, then `range(start_page, end_page + 1)`;
a malformed number raises (caught by the wrapper). -/
def parsePagesStr (s : List Char) : Except Unit (List Int) :=
  match splitOnChar '-' s with
  | [] => .error ()
  | p0 :: rest =>
    match pyInt p0 with
    | none => .error ()
    | some a =>
      match rest with
      | [] => .ok (intRangeICO (a - 1) ((a - 1) + 1))
      | p1 :: _ =>
        match pyInt p1 with
        | none => .error ()
        | some b => .ok (intRangeICO (a - 1) ((b - 1) + 1))

/-- `pages_to_process` from the `pages` argument; the list form is
converted to 0-indexed numbers. -/
def pagesToProcess : PagesArg → Except Unit (List Int)
  | .str s => parsePagesStr s
  | .list l => .ok (l.map fun p => p - 1)

/-- Everything inside the `try` of `extract_ip_probes`. -/
def extractBody (doc : List (Option (List Char))) (pages : PagesArg) :
    Except Unit (List RegionEntry) :=
  match pagesToProcess pages with
  | .error e => .error e
  | .ok ns =>
    match pagesLoop doc ns initState with
    | .error e => .error e
    | .ok st => .ok st.data

/-- `extract_ip_probes`: the catch-all turns any raised error into an
empty result. -/
def extract_ip_probes (doc : List (Option (List Char))) (pages : PagesArg) :
    List RegionEntry :=
  match extractBody doc pages with
  | .ok d => d
  | .error _ => []

/-!
## `find_table_pages` and the locate portion of `main`
-/

/-- The scan loop of `find_table_pages`: for each page number collect
`page_num + 1` when the lowered text contains the lowered term. -/
def findLoop (doc : List (Option (List Char))) (term : List Char) :
    List Int → List Int → Except Unit (List Int)
  | [], acc => .ok acc
  | n :: ns, acc =>
    match (if n < 0 then none else doc.get? n.toNat) with
    | none => .error ()
    | some none => .error ()
    | some (some t) =>
      findLoop doc term ns
        (if containsSub (lowerStr term) (lowerStr t) then acc ++ [n + 1]
         else acc)

/-- Everything inside the `try` of `find_table_pages`: clamp the end
page to the document length (`end_page = len(doc)` when absent) and
scan `range(start_page - 1, end_page)`. -/
def find_table_pagesE (doc : List (Option (List Char))) (term : List Char)
    (startPage : Int) (endPage : Option Int) : Except Unit (List Int) :=
  let endp : Int :=
    match endPage with
    | none => (doc.length : Int)
    | some e => min e (doc.length : Int)
  findLoop doc term (intRangeICO (startPage - 1) endp) []

/-- `find_table_pages`: the catch-all turns any raised error into `[]`. -/
def find_table_pages (doc : List (Option (List Char))) (term : List Char)
    (startPage : Int) (endPage : Option Int) : List Int :=
  match find_table_pagesE doc term startPage endPage with
  | .ok l => l
  | .error _ => []

def searchPhrase1 : List Char := ("IP Probes by Region".toList)

def searchPhrase2 : List Char := ("Probes by Region".toList)

def searchPhrase3 : List Char := ("Probe".toList)

/-- `main`'s search-phrase cascade: each phrase is tried over pages
1..300 and the first non-empty page set wins. -/
def pipelineTablePages (doc : List (Option (List Char))) : List Int :=
  let t1 := find_table_pages doc searchPhrase1 1 (some 300)
  if t1 = [] then
    let t2 := find_table_pages doc searchPhrase2 1 (some 300)
    if t2 = [] then find_table_pages doc searchPhrase3 1 (some 300)
    else t2
  else t1

/-- `main`'s locate-then-extract flow: extract from the located pages,
or from the fixed `"202-203"` range when no phrase matched anywhere. -/
def pipelineExtract (doc : List (Option (List Char))) : List RegionEntry :=
  let tp := pipelineTablePages doc
  if tp = [] then extract_ip_probes doc (PagesArg.str ("202-203".toList))
  else extract_ip_probes doc (PagesArg.list tp)

/-!
## Specification-side predicates and concrete fixtures
-/

/-- Spec-side octet: a nonempty decimal digit string of at most three
characters whose value is at most 255 (the language of the octet
alternation `25[0-5]|2[0-4][0-9]|[01]?[0-9][0-9]?`). -/
def isOctetStr (m : List Char) : Bool :=
  decide (m ≠ []) && decide (m.length ≤ 3) && m.all isDigitChar &&
    decide (digitsVal m ≤ 255)

/-- Spec-side IPv4 shape: four dot-separated groups, each an octet. -/
def isDottedQuad (tok : List Char) : Bool :=
  match splitOnChar '.' tok with
  | [g1, g2, g3, g4] => isOctetStr g1 && isOctetStr g2 && isOctetStr g3 && isOctetStr g4
  | _ => false

/-- Spec-side IPv6 shape as the code has it:
`2610:a1:` ++ exactly four hex digits ++ `:128::` ++ one to three hex
digits, nothing more. -/
def ipv6Exact4 (tok : List Char) : Bool :=
  match stripLit pre6 tok with
  | none => false
  | some r1 =>
    match matchHex 4 r1 with
    | none => false
    | some (_, r2) =>
      match stripLit mid6 r2 with
      | none => false
      | some hs =>
        decide (hs ≠ []) && decide (hs.length ≤ 3) && hs.all isHexChar

/-- Modelled from the claim's words: the shape `2610:a1:XXXX:128::Y`
with `XXXX` being 1 to 4 hex digits and `Y` being 1 to 3 hex digits. -/
def ipv6Claim14 (tok : List Char) : Bool :=
  match stripLit pre6 tok with
  | none => false
  | some r1 =>
    let p := takeHexUpTo 4 r1
    if p.1 = [] then false
    else
      match stripLit mid6 p.2 with
      | none => false
      | some hs =>
        decide (hs ≠ []) && decide (hs.length ≤ 3) && hs.all isHexChar

/-- Assemble an IPv6 token of the vendor shape from its two variable
hex parts. -/
def ipv6Assemble (h4 hs : List Char) : List Char := pre6 ++ h4 ++ mid6 ++ hs

/-- Page `n` (0-indexed) of `texts` exists and contains `term`
case-insensitively. -/
def pageMatches (texts : List (List Char)) (term : List Char) (n : Nat) : Bool :=
  match texts.get? n with
  | some t => containsSub (lowerStr term) (lowerStr t)
  | none => false

/-- The 1-indexed numbers of the pages among the first `bound` that
contain `term`, in order. -/
def matchingPages (texts : List (List Char)) (term : List Char) (bound : Nat) :
    List Int :=
  ((List.range bound).filter (pageMatches texts term)).map fun n =>
    Int.ofNat n + 1

/-- Pointwise effect of `normalize_region_name`. -/
def swapDash (c : Char) : Char := if c = enDash ∨ c = emDash then '-' else c

/-- Both match lists of a line are duplicate-free. -/
def lineTokensNodup (l : List Char) : Bool :=
  decide ((findIPv4 (stripChars l)).Nodup) && decide ((findIPv6 (stripChars l)).Nodup)

/-- Every line of a page has duplicate-free match lists (vacuous for a
page whose text extraction fails). -/
def pageTokensNodup : Option (List Char) → Bool
  | none => true
  | some t => (splitLines t).all lineTokensNodup

/-- A one-page document whose only data line repeats the same IPv4
token. -/
def docC2 : List (Option (List Char)) :=
  [some (("ip probes by region\nAlpha\n1.2.3.4 1.2.3.4").toList)]

/-- A one-page document with a single, duplicate-free data line. -/
def docW2 : List (Option (List Char)) :=
  [some (("ip probes by region\nAlpha\n1.2.3.4").toList)]

/-- A document whose first page yields a region entry and whose second
page fails text extraction. -/
def docErr : List (Option (List Char)) :=
  [some (("ip probes by region\nAlpha\n1.2.3.4").toList), none]

/-- A 301-page document whose search phrase appears only on the last
page. -/
def docC3texts : List (List Char) :=
  List.replicate 300 [] ++ [("IP Probes by Region".toList)]

/-- A one-page document realising the specification's end-to-end
scenario. -/
def docW10 : List (Option (List Char)) :=
  [some (("ip probes by region\nNorth America\n192.168.1.1  2610:a1:00AA:128::1").toList)]

/-- The region entry that `docW10` extracts. -/
def entryNA : RegionEntry :=
  ⟨("North America".toList), [("192.168.1.1".toList)],
   [("2610:a1:00AA:128::1".toList)]⟩

/-!
## Claim C9: region-name normalization
-/

lemma comp_eq_swapDash (c : Char) :
    (if (if c = enDash then '-' else c) = emDash then '-'
     else if c = enDash then '-' else c) = swapDash c := by
  by_cases h1 : c = enDash
  · subst h1; decide
  · by_cases h2 : c = emDash
    · subst h2; decide
    · simp [swapDash, h1, h2]

lemma swapDash_swapDash (c : Char) : swapDash (swapDash c) = swapDash c := by
  by_cases h : c = enDash ∨ c = emDash
  · simp only [swapDash, if_pos h]; decide
  · simp only [swapDash, if_neg h]

lemma normalize_eq_map (s : List Char) :
    normalize_region_name s = s.map swapDash := by
  have hfun :
      ((fun c => if c = emDash then '-' else c) ∘
        fun c => if c = enDash then '-' else c) = swapDash :=
    funext comp_eq_swapDash
  rw [normalize_region_name, List.map_map, hfun]

/-- Claim C9: `normalize_region_name` replaces every en-dash and
em-dash with `'-'` and alters nothing else (it acts pointwise as
`swapDash`, which fixes every other character), and it is idempotent. -/
theorem normalize_region_name_spec (s : List Char) :
    normalize_region_name s = s.map swapDash ∧
    (∀ c, c ≠ enDash → c ≠ emDash → swapDash c = c) ∧
    normalize_region_name (normalize_region_name s) = normalize_region_name s := by
  refine ⟨normalize_eq_map s, ?_, ?_⟩
  · intro c h1 h2; simp [swapDash, h1, h2]
  · rw [normalize_eq_map, normalize_eq_map, List.map_map]
    exact congrFun (congrArg List.map (funext swapDash_swapDash)) s

/-!
## Claim C7: the whole-run catch-all
-/

/-- Claim C7: whenever the body of `extract_ip_probes` raises, the
function returns the empty list — no partially accumulated region
entries survive. -/
theorem extract_catch_empty (doc : List (Option (List Char))) (pages : PagesArg)
    (h : (extractBody doc pages).isOk = false) :
    extract_ip_probes doc pages = [] := by
  unfold extract_ip_probes
  cases hb : extractBody doc pages with
  | ok d => rw [hb] at h; simp [Except.isOk, Except.toBool] at h
  | error e => rfl

theorem extract_catch_empty_witness :
    (extractBody docErr (PagesArg.list [1, 2])).isOk = false ∧
    extract_ip_probes docErr (PagesArg.list [1, 2]) = [] :=
  ⟨by decide, extract_catch_empty docErr (PagesArg.list [1, 2]) (by decide)⟩

/-!
## Claim C8: orphaned address lines
-/

/-- Claim C8: while the current-region cursor is unset, no line can
change the accumulated data, and an address-bearing line leaves the
whole state untouched (it is silently dropped). -/
theorem orphan_address_lines_dropped (st : EState) (rawLine : List Char)
    (h : st.currentRegion = none) :
    (processLine st rawLine).data = st.data ∧
    ((findIPv4 (stripChars rawLine) ≠ [] ∨ findIPv6 (stripChars rawLine) ≠ []) →
      processLine st rawLine = st) := by
  simp only [processLine]
  constructor
  · split
    · rfl
    · split
      · rfl
      · split
        · rw [h]
        · split
          · rfl
          · rfl
  · intro hv
    split
    · rfl
    · split
      · rfl
      · rw [h]

theorem orphan_address_lines_dropped_witness :
    (processLine initState (("1.2.3.4").toList)).data = initState.data ∧
    processLine initState (("1.2.3.4").toList) = initState :=
  ⟨(orphan_address_lines_dropped initState (("1.2.3.4").toList) rfl).1,
   (orphan_address_lines_dropped initState (("1.2.3.4").toList) rfl).2
     (by decide)⟩

/-!
## Claim C10: entries always carry at least one address
-/

lemma mem_updateFirst {nr : List Char} {v4 v6 : List (List Char)} :
    ∀ {d : List RegionEntry} {e : RegionEntry}, e ∈ updateFirst nr v4 v6 d →
      e ∈ d ∨ ∃ e0 ∈ d, e = extendEntry e0 v4 v6 := by
  intro d
  induction d with
  | nil => intro e he; simp [updateFirst] at he
  | cons e0 es ih =>
    intro e he
    simp only [updateFirst] at he
    split at he
    · rcases List.mem_cons.mp he with h1 | h1
      · exact Or.inr ⟨e0, List.mem_cons_self e0 es, h1⟩
      · exact Or.inl (List.mem_cons_of_mem e0 h1)
    · rcases List.mem_cons.mp he with h1 | h1
      · exact Or.inl (h1 ▸ List.mem_cons_self e0 es)
      · rcases ih h1 with h2 | ⟨e1, he1, h2⟩
        · exact Or.inl (List.mem_cons_of_mem e0 h2)
        · exact Or.inr ⟨e1, List.mem_cons_of_mem e0 he1, h2⟩

lemma extendEntry_nonempty (e : RegionEntry) (v4 v6 : List (List Char))
    (h : e.ipv4 ≠ [] ∨ e.ipv6 ≠ []) :
    (extendEntry e v4 v6).ipv4 ≠ [] ∨ (extendEntry e v4 v6).ipv6 ≠ [] := by
  rcases h with h | h
  · left
    simp only [extendEntry]
    intro hc
    exact h (List.append_eq_nil.mp hc).1
  · right
    simp only [extendEntry]
    intro hc
    exact h (List.append_eq_nil.mp hc).1

lemma processLine_nonempty (st : EState) (l : List Char)
    (h : ∀ e ∈ st.data, e.ipv4 ≠ [] ∨ e.ipv6 ≠ []) :
    ∀ e ∈ (processLine st l).data, e.ipv4 ≠ [] ∨ e.ipv6 ≠ [] := by
  simp only [processLine]
  split
  · exact h
  · split
    · exact h
    · split
      · rename_i haddr
        rcases hc : st.currentRegion with _ | cr
        · exact h
        · dsimp only
          split
          · intro e he
            rcases mem_updateFirst he with h1 | ⟨e0, he0, rfl⟩
            · exact h e h1
            · exact extendEntry_nonempty e0 _ _ (h e0 he0)
          · intro e he
            rcases List.mem_append.mp he with h1 | h1
            · exact h e h1
            · rcases List.mem_singleton.mp h1 with rfl
              exact haddr
      · split
        · exact h
        · exact h

lemma foldl_processLine_nonempty :
    ∀ (ls : List (List Char)) (st : EState),
      (∀ e ∈ st.data, e.ipv4 ≠ [] ∨ e.ipv6 ≠ []) →
      ∀ e ∈ (ls.foldl processLine st).data, e.ipv4 ≠ [] ∨ e.ipv6 ≠ [] := by
  intro ls
  induction ls with
  | nil => intro st h; exact h
  | cons l ls ih =>
    intro st h
    exact ih (processLine st l) (processLine_nonempty st l h)

lemma processPageText_nonempty (st : EState) (t : List Char)
    (h : ∀ e ∈ st.data, e.ipv4 ≠ [] ∨ e.ipv6 ≠ []) :
    ∀ e ∈ (processPageText st t).data, e.ipv4 ≠ [] ∨ e.ipv6 ≠ [] := by
  simp only [processPageText]
  split
  · split
    · exact h
    · exact foldl_processLine_nonempty _ _ h
  · split
    · exact h
    · exact foldl_processLine_nonempty _ _ h

lemma pagesLoop_nonempty (doc : List (Option (List Char))) :
    ∀ (ns : List Int) (st st' : EState), pagesLoop doc ns st = .ok st' →
      (∀ e ∈ st.data, e.ipv4 ≠ [] ∨ e.ipv6 ≠ []) →
      ∀ e ∈ st'.data, e.ipv4 ≠ [] ∨ e.ipv6 ≠ [] := by
  intro ns
  induction ns with
  | nil =>
    intro st st' heq h
    simp only [pagesLoop] at heq
    cases heq
    exact h
  | cons n ns ih =>
    intro st st' heq h
    simp only [pagesLoop] at heq
    split at heq
    · exact ih st st' heq h
    · split at heq
      · exact ih st st' heq h
      · cases heq
      · exact ih _ st' heq (processPageText_nonempty st _ h)

/-- Claim C10: every region entry produced by `extract_ip_probes`
carries at least one address (entries are only created from lines that
matched an address token, and merging only extends the lists). -/
theorem entries_have_addresses (doc : List (Option (List Char)))
    (pages : PagesArg) (e : RegionEntry)
    (h : e ∈ extract_ip_probes doc pages) :
    e.ipv4 ≠ [] ∨ e.ipv6 ≠ [] := by
  unfold extract_ip_probes at h
  cases hb : extractBody doc pages with
  | error err => rw [hb] at h; simp at h
  | ok d =>
    rw [hb] at h
    simp only at h
    unfold extractBody at hb
    cases hp : pagesToProcess pages with
    | error err => rw [hp] at hb; simp at hb
    | ok ns =>
      rw [hp] at hb
      simp only at hb
      cases hl : pagesLoop doc ns initState with
      | error err => rw [hl] at hb; simp at hb
      | ok st =>
        rw [hl] at hb
        simp only [Except.ok.injEq] at hb
        subst hb
        refine pagesLoop_nonempty doc ns initState st hl ?_ e h
        intro e0 he0
        simp [initState] at he0

theorem entries_have_addresses_witness : entryNA.ipv4 ≠ [] ∨ entryNA.ipv6 ≠ [] :=
  entries_have_addresses docW10 (PagesArg.list [1]) entryNA (by decide)

/-!
## Claim C6: the anchor flag
-/

lemma processLine_inTable (st : EState) (l : List Char) :
    (processLine st l).inTable = st.inTable := by
  simp only [processLine]
  split
  · rfl
  · split
    · rfl
    · split
      · rcases st.currentRegion with _ | cr
        · rfl
        · dsimp only
          split
          · rfl
          · rfl
      · split
        · rfl
        · rfl

lemma foldl_processLine_inTable :
    ∀ (ls : List (List Char)) (st : EState),
      (ls.foldl processLine st).inTable = st.inTable := by
  intro ls
  induction ls with
  | nil => intro st; rfl
  | cons l ls ih => intro st; rw [List.foldl_cons, ih, processLine_inTable]

lemma processPageText_inTable (st : EState) (t : List Char) :
    (processPageText st t).inTable =
      (st.inTable || containsSub anchorStr (lowerStr t)) := by
  simp only [processPageText]
  split
  · rename_i hanchor
    rw [hanchor, Bool.or_true]
    split
    · rename_i hfalse
      exact absurd hfalse (by simp)
    · rw [foldl_processLine_inTable]
  · rename_i hanchor
    rw [Bool.not_eq_true] at hanchor
    rw [hanchor, Bool.or_false]
    split
    · rfl
    · rw [foldl_processLine_inTable]

/-- Claim C6: a page whose text lacks the anchor phrase leaves the
state completely unchanged while the anchor flag is unset (so no entry
is created or extended from pages before the first anchor page), the
flag after a page is the disjunction of the old flag and the page's
anchor test, and once set the flag survives the rest of the page
loop. -/
theorem anchor_gating (doc : List (Option (List Char))) (st : EState)
    (t : List Char) (ns : List Int) (st' : EState) :
    ((processPageText st t).inTable =
      (st.inTable || containsSub anchorStr (lowerStr t))) ∧
    (st.inTable = false → containsSub anchorStr (lowerStr t) = false →
      processPageText st t = st) ∧
    (pagesLoop doc ns st = .ok st' → st.inTable = true → st'.inTable = true) := by
  refine ⟨processPageText_inTable st t, ?_, ?_⟩
  · intro h1 h2
    simp [processPageText, h1, h2]
  · have mono : ∀ (ms : List Int) (s s' : EState), pagesLoop doc ms s = .ok s' →
        s.inTable = true → s'.inTable = true := by
      intro ms
      induction ms with
      | nil =>
        intro s s' heq h
        simp only [pagesLoop] at heq
        cases heq
        exact h
      | cons n ms ih =>
        intro s s' heq h
        simp only [pagesLoop] at heq
        split at heq
        · exact ih s s' heq h
        · split at heq
          · exact ih s s' heq h
          · cases heq
          · refine ih _ s' heq ?_
            rw [processPageText_inTable]
            rw [h, Bool.true_or]
    exact mono ns st st'

theorem anchor_gating_witness :
    ((processPageText ⟨[], none, true⟩ (("x").toList)).inTable =
      ((true : Bool) || containsSub anchorStr (lowerStr (("x").toList)))) ∧
    processPageText initState (("hello").toList) = initState ∧
    (⟨[], none, true⟩ : EState).inTable = true :=
  ⟨(anchor_gating [] ⟨[], none, true⟩ (("x").toList) [] initState).1,
   (anchor_gating [] initState (("hello").toList) [] initState).2.1 rfl (by decide),
   (anchor_gating [some (("x").toList)] ⟨[], none, true⟩ (("x").toList) [0]
      ⟨[], none, true⟩).2.2 rfl rfl⟩

/-!
## Claim C2: de-duplication
-/

lemma updateFirst_regions (nr : List Char) (v4 v6 : List (List Char)) :
    ∀ d : List RegionEntry,
      (updateFirst nr v4 v6 d).map RegionEntry.region = d.map RegionEntry.region := by
  intro d
  induction d with
  | nil => rfl
  | cons e es ih =>
    simp only [updateFirst]
    split
    · rfl
    · simp only [List.map_cons, ih]

lemma extract_invariant (P : List RegionEntry → Prop)
    (doc : List (Option (List Char))) (pages : PagesArg)
    (hstep : ∀ ns st st', pagesLoop doc ns st = .ok st' → P st.data → P st'.data)
    (hinit : P []) : P (extract_ip_probes doc pages) := by
  unfold extract_ip_probes
  cases hb : extractBody doc pages with
  | error err => exact hinit
  | ok d =>
    unfold extractBody at hb
    cases hp : pagesToProcess pages with
    | error err => rw [hp] at hb; simp at hb
    | ok ns =>
      rw [hp] at hb
      simp only at hb
      cases hl : pagesLoop doc ns initState with
      | error err => rw [hl] at hb; simp at hb
      | ok st =>
        rw [hl] at hb
        simp only [Except.ok.injEq] at hb
        subst hb
        exact hstep ns initState st hl hinit

lemma processLine_regions_nodup (st : EState) (l : List Char)
    (h : (st.data.map RegionEntry.region).Nodup) :
    ((processLine st l).data.map RegionEntry.region).Nodup := by
  simp only [processLine]
  split
  · exact h
  · split
    · exact h
    · split
      · rcases st.currentRegion with _ | cr
        · exact h
        · dsimp only
          split
          · rw [updateFirst_regions]
            exact h
          · rename_i hany
            rw [List.map_append, List.map_singleton]
            refine List.Nodup.append h (List.nodup_singleton _) ?_
            intro a ha ha2
            rcases List.mem_singleton.mp ha2 with rfl
            rcases List.mem_map.mp ha with ⟨e0, he0, hr⟩
            simp only [List.any_eq_true, decide_eq_true_eq] at hany
            exact hany ⟨e0, he0, hr⟩
      · split
        · exact h
        · exact h

lemma extendEntry_lists_nodup (e : RegionEntry) (v4 v6 : List (List Char))
    (h : e.ipv4.Nodup ∧ e.ipv6.Nodup) (hv4 : v4.Nodup) (hv6 : v6.Nodup) :
    (extendEntry e v4 v6).ipv4.Nodup ∧ (extendEntry e v4 v6).ipv6.Nodup := by
  constructor
  · refine List.Nodup.append h.1 (hv4.filter _) ?_
    intro a ha ha2
    rcases List.mem_filter.mp ha2 with ⟨_, hdec⟩
    exact (decide_eq_true_eq.mp hdec) ha
  · refine List.Nodup.append h.2 (hv6.filter _) ?_
    intro a ha ha2
    rcases List.mem_filter.mp ha2 with ⟨_, hdec⟩
    exact (decide_eq_true_eq.mp hdec) ha

lemma processLine_lists_nodup (st : EState) (l : List Char)
    (hl : lineTokensNodup l = true)
    (h : ∀ e ∈ st.data, e.ipv4.Nodup ∧ e.ipv6.Nodup) :
    ∀ e ∈ (processLine st l).data, e.ipv4.Nodup ∧ e.ipv6.Nodup := by
  simp only [lineTokensNodup, Bool.and_eq_true, decide_eq_true_eq] at hl
  obtain ⟨h4, h6⟩ := hl
  simp only [processLine]
  split
  · exact h
  · split
    · exact h
    · split
      · rcases hc : st.currentRegion with _ | cr
        · exact h
        · dsimp only
          split
          · intro e he
            rcases mem_updateFirst he with h1 | ⟨e0, he0, rfl⟩
            · exact h e h1
            · exact extendEntry_lists_nodup e0 _ _ (h e0 he0) h4 h6
          · intro e he
            rcases List.mem_append.mp he with h1 | h1
            · exact h e h1
            · rcases List.mem_singleton.mp h1 with rfl
              exact ⟨h4, h6⟩
      · split
        · exact h
        · exact h

lemma foldl_processLine_lists_nodup :
    ∀ (ls : List (List Char)) (st : EState),
      (∀ l ∈ ls, lineTokensNodup l = true) →
      (∀ e ∈ st.data, e.ipv4.Nodup ∧ e.ipv6.Nodup) →
      ∀ e ∈ (ls.foldl processLine st).data, e.ipv4.Nodup ∧ e.ipv6.Nodup := by
  intro ls
  induction ls with
  | nil => intro st _ h; exact h
  | cons l ls ih =>
    intro st hls h
    exact ih (processLine st l)
      (fun l2 hl2 => hls l2 (List.mem_cons_of_mem l hl2))
      (processLine_lists_nodup st l (hls l (List.mem_cons_self l ls)) h)

lemma processPageText_lists_nodup (st : EState) (t : List Char)
    (ht : pageTokensNodup (some t) = true)
    (h : ∀ e ∈ st.data, e.ipv4.Nodup ∧ e.ipv6.Nodup) :
    ∀ e ∈ (processPageText st t).data, e.ipv4.Nodup ∧ e.ipv6.Nodup := by
  have hls : ∀ l ∈ splitLines t, lineTokensNodup l = true :=
    List.all_eq_true.mp ht
  simp only [processPageText]
  split
  · split
    · exact h
    · exact foldl_processLine_lists_nodup _ _ hls h
  · split
    · exact h
    · exact foldl_processLine_lists_nodup _ _ hls h

lemma foldl_processLine_regions_nodup :
    ∀ (ls : List (List Char)) (st : EState),
      (st.data.map RegionEntry.region).Nodup →
      ((ls.foldl processLine st).data.map RegionEntry.region).Nodup := by
  intro ls
  induction ls with
  | nil => intro st h; exact h
  | cons l ls ih =>
    intro st h
    exact ih (processLine st l) (processLine_regions_nodup st l h)

lemma processPageText_regions_nodup (st : EState) (t : List Char)
    (h : (st.data.map RegionEntry.region).Nodup) :
    ((processPageText st t).data.map RegionEntry.region).Nodup := by
  simp only [processPageText]
  split
  · split
    · exact h
    · exact foldl_processLine_regions_nodup _ _ h
  · split
    · exact h
    · exact foldl_processLine_regions_nodup _ _ h

lemma pagesLoop_regions_nodup (doc : List (Option (List Char))) :
    ∀ (ns : List Int) (st st' : EState), pagesLoop doc ns st = .ok st' →
      (st.data.map RegionEntry.region).Nodup →
      (st'.data.map RegionEntry.region).Nodup := by
  intro ns
  induction ns with
  | nil =>
    intro st st' heq h
    simp only [pagesLoop] at heq
    cases heq
    exact h
  | cons n ns ih =>
    intro st st' heq h
    simp only [pagesLoop] at heq
    split at heq
    · exact ih st st' heq h
    · split at heq
      · exact ih st st' heq h
      · cases heq
      · exact ih _ st' heq (processPageText_regions_nodup st _ h)

lemma pagesLoop_lists_nodup (doc : List (Option (List Char)))
    (hdoc : doc.all pageTokensNodup = true) :
    ∀ (ns : List Int) (st st' : EState), pagesLoop doc ns st = .ok st' →
      (∀ e ∈ st.data, e.ipv4.Nodup ∧ e.ipv6.Nodup) →
      ∀ e ∈ st'.data, e.ipv4.Nodup ∧ e.ipv6.Nodup := by
  intro ns
  induction ns with
  | nil =>
    intro st st' heq h
    simp only [pagesLoop] at heq
    cases heq
    exact h
  | cons n ns ih =>
    intro st st' heq h
    simp only [pagesLoop] at heq
    split at heq
    · exact ih st st' heq h
    · split at heq
      · exact ih st st' heq h
      · cases heq
      · rename_i hget
        refine ih _ st' heq ?_
        refine processPageText_lists_nodup st _ ?_ h
        exact List.all_eq_true.mp hdoc _ (List.get?_mem hget)

/-- The duplicated token list that `docC2` produces. -/
theorem dedup_cex :
    extract_ip_probes docC2 (PagesArg.list [1]) =
      [⟨("Alpha".toList), [("1.2.3.4".toList), ("1.2.3.4".toList)], []⟩] ∧
    ¬ List.Nodup [("1.2.3.4".toList), ("1.2.3.4".toList)] := by
  constructor
  · decide
  · decide

/-- Claim C2 (amended): region names in the result are pairwise
distinct, and — provided no single line's match list repeats a token —
each entry's address lists are duplicate-free (addresses already
present in an entry are never re-added by later lines; a single line
containing the same token twice does introduce a duplicate, see the
counterexample). -/
theorem dedup_spec (doc : List (Option (List Char))) (pages : PagesArg) :
    ((extract_ip_probes doc pages).map RegionEntry.region).Nodup ∧
    (doc.all pageTokensNodup = true →
      ∀ e ∈ extract_ip_probes doc pages, e.ipv4.Nodup ∧ e.ipv6.Nodup) := by
  constructor
  · refine extract_invariant
      (fun d => (d.map RegionEntry.region).Nodup) doc pages ?_ ?_
    · exact fun ns st st' heq h => pagesLoop_regions_nodup doc ns st st' heq h
    · simp
  · intro hdoc
    refine extract_invariant
      (fun d => ∀ e ∈ d, e.ipv4.Nodup ∧ e.ipv6.Nodup) doc pages ?_ ?_
    · exact fun ns st st' heq h => pagesLoop_lists_nodup doc hdoc ns st st' heq h
    · simp

theorem dedup_spec_witness :
    ((extract_ip_probes docW2 (PagesArg.list [1])).map RegionEntry.region).Nodup ∧
    ∀ e ∈ extract_ip_probes docW2 (PagesArg.list [1]),
      e.ipv4.Nodup ∧ e.ipv6.Nodup :=
  ⟨(dedup_spec docW2 (PagesArg.list [1])).1,
   (dedup_spec docW2 (PagesArg.list [1])).2 (by decide)⟩

/-!
## Claim C5: the IPv4 token language
-/

lemma oct25 : ∀ c ∈ zeroFive, isOctetStr ['2', '5', c] = true := by decide

lemma oct2xx : ∀ b ∈ zeroFour, ∀ c ∈ digitChars, isOctetStr ['2', b, c] = true := by
  decide

lemma octA : ∀ a ∈ zeroOne, ∀ b ∈ digitChars, ∀ c ∈ digitChars,
    isOctetStr [a, b, c] = true := by decide

lemma octB : ∀ a ∈ zeroOne, ∀ b ∈ digitChars, isOctetStr [a, b] = true := by decide

lemma octC : ∀ a ∈ digitChars, ∀ b ∈ digitChars, isOctetStr [a, b] = true := by
  decide

lemma octD : ∀ a ∈ digitChars, isOctetStr [a] = true := by decide

lemma cand25_sound : ∀ cs m r, (m, r) ∈ cand25 cs →
    isOctetStr m = true ∧ cs = m ++ r := by
  intro cs m r h
  rw [cand25.eq_def] at h
  split at h
  · split at h
    · rename_i a b c rest hguard
      obtain ⟨h1, h2, h3⟩ := hguard
      simp only [List.mem_singleton, Prod.mk.injEq] at h
      obtain ⟨hm, hr⟩ := h
      subst hm; subst hr; subst h1; subst h2
      exact ⟨oct25 c h3, rfl⟩
    · simp at h
  · simp at h

lemma cand2xx_sound : ∀ cs m r, (m, r) ∈ cand2xx cs →
    isOctetStr m = true ∧ cs = m ++ r := by
  intro cs m r h
  rw [cand2xx.eq_def] at h
  split at h
  · split at h
    · rename_i a b c rest hguard
      obtain ⟨h1, h2, h3⟩ := hguard
      simp only [List.mem_singleton, Prod.mk.injEq] at h
      obtain ⟨hm, hr⟩ := h
      subst hm; subst hr; subst h1
      exact ⟨oct2xx b h2 c h3, rfl⟩
    · simp at h
  · simp at h

lemma candA_sound : ∀ cs m r, (m, r) ∈ candA cs →
    isOctetStr m = true ∧ cs = m ++ r := by
  intro cs m r h
  rw [candA.eq_def] at h
  split at h
  · split at h
    · rename_i a b c rest hguard
      obtain ⟨h1, h2, h3⟩ := hguard
      simp only [List.mem_singleton, Prod.mk.injEq] at h
      obtain ⟨hm, hr⟩ := h
      subst hm; subst hr
      exact ⟨octA a h1 b h2 c h3, rfl⟩
    · simp at h
  · simp at h

lemma candB_sound : ∀ cs m r, (m, r) ∈ candB cs →
    isOctetStr m = true ∧ cs = m ++ r := by
  intro cs m r h
  rw [candB.eq_def] at h
  split at h
  · split at h
    · rename_i a b rest hguard
      obtain ⟨h1, h2⟩ := hguard
      simp only [List.mem_singleton, Prod.mk.injEq] at h
      obtain ⟨hm, hr⟩ := h
      subst hm; subst hr
      exact ⟨octB a h1 b h2, rfl⟩
    · simp at h
  · simp at h

lemma candC_sound : ∀ cs m r, (m, r) ∈ candC cs →
    isOctetStr m = true ∧ cs = m ++ r := by
  intro cs m r h
  rw [candC.eq_def] at h
  split at h
  · split at h
    · rename_i a b rest hguard
      obtain ⟨h1, h2⟩ := hguard
      simp only [List.mem_singleton, Prod.mk.injEq] at h
      obtain ⟨hm, hr⟩ := h
      subst hm; subst hr
      exact ⟨octC a h1 b h2, rfl⟩
    · simp at h
  · simp at h

lemma candD_sound : ∀ cs m r, (m, r) ∈ candD cs →
    isOctetStr m = true ∧ cs = m ++ r := by
  intro cs m r h
  rw [candD.eq_def] at h
  split at h
  · split at h
    · rename_i a rest hguard
      simp only [List.mem_singleton, Prod.mk.injEq] at h
      obtain ⟨hm, hr⟩ := h
      subst hm; subst hr
      exact ⟨octD a hguard, rfl⟩
    · simp at h
  · simp at h

lemma octetCands_sound : ∀ cs m r, (m, r) ∈ octetCands cs →
    isOctetStr m = true ∧ cs = m ++ r := by
  intro cs m r h
  simp only [octetCands, List.mem_append] at h
  rcases h with ((((h | h) | h) | h) | h) | h
  · exact cand25_sound cs m r h
  · exact cand2xx_sound cs m r h
  · exact candA_sound cs m r h
  · exact candB_sound cs m r h
  · exact candC_sound cs m r h
  · exact candD_sound cs m r h

lemma firstSome_eq_some {α β : Type} {l : List α} {f : α → Option β} {b : β}
    (h : firstSome l f = some b) : ∃ a ∈ l, f a = some b := by
  induction l with
  | nil => simp [firstSome] at h
  | cons a as ih =>
    simp only [firstSome] at h
    cases hfa : f a with
    | some b2 =>
      rw [hfa] at h
      simp only [Option.some.injEq] at h
      subst h
      exact ⟨a, List.mem_cons_self a as, hfa⟩
    | none =>
      rw [hfa] at h
      rcases ih h with ⟨a2, ha2, hfa2⟩
      exact ⟨a2, List.mem_cons_of_mem a ha2, hfa2⟩

lemma splitOnChar_of_not_mem (sep : Char) :
    ∀ m : List Char, (∀ c ∈ m, c ≠ sep) → splitOnChar sep m = [m] := by
  intro m
  induction m with
  | nil => intro _; rfl
  | cons c t ih =>
    intro h
    have hc : ¬(c = sep) := h c (List.mem_cons_self c t)
    simp only [splitOnChar, if_neg hc]
    rw [ih fun d hd => h d (List.mem_cons_of_mem c hd)]

lemma splitOnChar_append (sep : Char) :
    ∀ (m rest : List Char), (∀ c ∈ m, c ≠ sep) →
      splitOnChar sep (m ++ sep :: rest) = m :: splitOnChar sep rest := by
  intro m
  induction m with
  | nil =>
    intro rest _
    simp [splitOnChar]
  | cons c t ih =>
    intro rest h
    have hc : ¬(c = sep) := h c (List.mem_cons_self c t)
    simp only [List.cons_append, splitOnChar, if_neg hc, List.append_eq]
    rw [ih rest fun d hd => h d (List.mem_cons_of_mem c hd)]

lemma digit_ne_dot : ∀ c ∈ digitChars, c ≠ '.' := by decide

lemma isOctetStr_no_sep {m : List Char} (h : isOctetStr m = true) :
    ∀ c ∈ m, c ≠ '.' := by
  simp only [isOctetStr, Bool.and_eq_true, List.all_eq_true, decide_eq_true_eq] at h
  obtain ⟨⟨⟨h1, h2⟩, h3⟩, h4⟩ := h
  intro c hc
  have hd := h3 c hc
  rw [isDigitChar, decide_eq_true_eq] at hd
  exact digit_ne_dot c hd

lemma matchGroups_sound :
    ∀ (k : Nat) (cs m r : List Char), matchGroups k cs = some (m, r) →
      (splitOnChar '.' m).length = k + 1 ∧
      ∀ g ∈ splitOnChar '.' m, isOctetStr g = true := by
  intro k
  induction k with
  | zero =>
    intro cs m r h
    simp only [matchGroups] at h
    rcases firstSome_eq_some h with ⟨p, hp, hfp⟩
    have hm : m = p.1 := by
      rcases hp2 : p.2 with _ | ⟨c, t⟩ <;> rw [hp2] at hfp
      · simp only [Option.some.injEq, Prod.mk.injEq] at hfp
        exact hfp.1.symm
      · simp only at hfp
        split at hfp
        · simp at hfp
        · simp only [Option.some.injEq, Prod.mk.injEq] at hfp
          exact hfp.1.symm
    subst hm
    have hoct := (octetCands_sound cs p.1 p.2 hp).1
    rw [splitOnChar_of_not_mem '.' p.1 (isOctetStr_no_sep hoct)]
    refine ⟨rfl, ?_⟩
    intro g hg
    rcases List.mem_singleton.mp hg with rfl
    exact hoct
  | succ k ih =>
    intro cs m r h
    simp only [matchGroups] at h
    rcases firstSome_eq_some h with ⟨p, hp, hfp⟩
    rcases hp2 : p.2 with _ | ⟨c, t⟩ <;> rw [hp2] at hfp
    · simp at hfp
    · split at hfp
      · rename_i r2 heq
        cases hmg : matchGroups k r2 with
        | none => rw [hmg] at hfp; simp at hfp
        | some q =>
          rw [hmg] at hfp
          rcases q with ⟨m2, r3⟩
          simp only [Option.some.injEq, Prod.mk.injEq] at hfp
          obtain ⟨hm, hr⟩ := hfp
          subst hm
          have hoct := (octetCands_sound cs p.1 p.2 hp).1
          rcases ih r2 m2 r3 hmg with ⟨hlen, hall⟩
          rw [splitOnChar_append '.' p.1 m2 (isOctetStr_no_sep hoct)]
          constructor
          · simp [hlen]
          · intro g hg
            rcases List.mem_cons.mp hg with rfl | hg2
            · exact hoct
            · exact hall g hg2
      · simp at hfp

lemma isDottedQuad_of_parts {m : List Char}
    (hlen : (splitOnChar '.' m).length = 4)
    (hall : ∀ g ∈ splitOnChar '.' m, isOctetStr g = true) :
    isDottedQuad m = true := by
  rcases hs : splitOnChar '.' m with _ | ⟨g1, t1⟩ <;> rw [hs] at hlen hall
  · simp at hlen
  rcases t1 with _ | ⟨g2, t2⟩
  · simp at hlen
  rcases t2 with _ | ⟨g3, t3⟩
  · simp at hlen
  rcases t3 with _ | ⟨g4, t4⟩
  · simp at hlen
  rcases t4 with _ | ⟨g5, t5⟩
  · simp only [isDottedQuad, hs]
    rw [hall g1 (by simp), hall g2 (by simp), hall g3 (by simp),
      hall g4 (by simp)]
    rfl
  · simp at hlen

lemma ipv4MatchAt_sound (prev : Option Char) (cs m r : List Char)
    (h : ipv4MatchAt prev cs = some (m, r)) : isDottedQuad m = true := by
  have hmg : matchGroups 3 cs = some (m, r) := by
    rcases prev with _ | c
    · exact h
    · simp only [ipv4MatchAt] at h
      split at h
      · simp at h
      · exact h
  rcases matchGroups_sound 3 cs m r hmg with ⟨hlen, hall⟩
  exact isDottedQuad_of_parts hlen hall

lemma scanAux_sound {mf : Option Char → List Char → Option (List Char × List Char)}
    {P : List Char → Prop}
    (hm : ∀ prev cs tok rest, mf prev cs = some (tok, rest) → P tok) :
    ∀ (fuel : Nat) (prev : Option Char) (cs : List Char) (tok : List Char),
      tok ∈ scanAux mf fuel prev cs → P tok := by
  intro fuel
  induction fuel with
  | zero => intro prev cs tok h; simp [scanAux] at h
  | succ f ih =>
    intro prev cs tok h
    simp only [scanAux] at h
    cases hmf : mf prev cs with
    | some p =>
      rcases p with ⟨t0, r0⟩
      rw [hmf] at h
      simp only at h
      rcases List.mem_cons.mp h with rfl | h2
      · exact hm prev cs tok r0 hmf
      · exact ih _ _ _ h2
    | none =>
      rw [hmf] at h
      rcases cs with _ | ⟨c, t⟩
      · simp at h
      · exact ih _ _ _ h

lemma findIPv4_sound (line tok : List Char) (h : tok ∈ findIPv4 line) :
    isDottedQuad tok = true :=
  scanAux_sound (fun prev cs tok rest hm => ipv4MatchAt_sound prev cs tok rest hm)
    (line.length + 1) none line tok h

/-- Claim C5: every token the IPv4 scan extracts is four dot-separated
decimal groups each in 0..255; `"192.168.1.1"` is extracted and
`"999.1.1.1"` yields nothing. -/
theorem ipv4_matcher_spec :
    (∀ line tok, tok ∈ findIPv4 line → isDottedQuad tok = true) ∧
    findIPv4 (("192.168.1.1").toList) = [("192.168.1.1").toList] ∧
    findIPv4 (("999.1.1.1").toList) = [] :=
  ⟨findIPv4_sound, by decide, by decide⟩

theorem ipv4_matcher_spec_witness :
    ("192.168.1.1").toList ∈ findIPv4 (("192.168.1.1").toList) ∧
    isDottedQuad (("192.168.1.1").toList) = true :=
  ⟨by decide,
   ipv4_matcher_spec.1 (("192.168.1.1").toList) (("192.168.1.1").toList)
     (by decide)⟩

/-!
## Claim C1: the IPv6 token language
-/

lemma stripLit_append : ∀ (l r : List Char), stripLit l (l ++ r) = some r := by
  intro l
  induction l with
  | nil => intro r; rfl
  | cons c t ih =>
    intro r
    simp only [List.cons_append, stripLit, if_pos rfl]
    exact ih r

lemma matchHex_sound : ∀ (k : Nat) (cs m r : List Char),
    matchHex k cs = some (m, r) →
      m.length = k ∧ m.all isHexChar = true ∧ cs = m ++ r := by
  intro k
  induction k with
  | zero =>
    intro cs m r h
    simp only [matchHex, Option.some.injEq, Prod.mk.injEq] at h
    obtain ⟨hm, hr⟩ := h
    subst hm; subst hr
    exact ⟨rfl, rfl, rfl⟩
  | succ k ih =>
    intro cs m r h
    rcases cs with _ | ⟨c, cs⟩
    · simp [matchHex] at h
    · simp only [matchHex] at h
      split at h
      · rename_i hhex
        cases hmh : matchHex k cs with
        | none => rw [hmh] at h; simp at h
        | some q =>
          rcases q with ⟨m2, r2⟩
          rw [hmh] at h
          simp only [Option.some.injEq, Prod.mk.injEq] at h
          obtain ⟨hm, hr⟩ := h
          obtain ⟨hlen, hall, heq⟩ := ih cs m2 r2 hmh
          subst hm; subst hr
          refine ⟨by simp [hlen], ?_, by rw [List.cons_append, ← heq]⟩
          simp only [List.all_cons, Bool.and_eq_true]
          exact ⟨hhex, hall⟩
      · simp at h

lemma matchHex_of_prefix : ∀ (m r : List Char), m.all isHexChar = true →
    matchHex m.length (m ++ r) = some (m, r) := by
  intro m
  induction m with
  | nil => intro r _; rfl
  | cons c t ih =>
    intro r hall
    simp only [List.all_cons, Bool.and_eq_true] at hall
    simp only [List.length_cons, List.cons_append, matchHex, if_pos hall.1,
      List.append_eq]
    rw [ih r hall.2]

lemma takeHex_sound : ∀ (k : Nat) (cs : List Char),
    (takeHexUpTo k cs).1.length ≤ k ∧
    (takeHexUpTo k cs).1.all isHexChar = true ∧
    cs = (takeHexUpTo k cs).1 ++ (takeHexUpTo k cs).2 := by
  intro k
  induction k with
  | zero => intro cs; exact ⟨Nat.le_refl 0, rfl, rfl⟩
  | succ k ih =>
    intro cs
    rcases cs with _ | ⟨c, t⟩
    · exact ⟨Nat.zero_le _, rfl, rfl⟩
    · simp only [takeHexUpTo]
      split
      · rename_i hhex
        obtain ⟨hlen, hall, heq⟩ := ih t
        refine ⟨by simpa using hlen, ?_, by simpa using heq⟩
        simp only [List.all_cons, Bool.and_eq_true]
        exact ⟨hhex, hall⟩
      · exact ⟨Nat.zero_le _, rfl, rfl⟩

lemma takeHex_exact : ∀ (hs : List Char) (k : Nat), hs.all isHexChar = true →
    hs.length ≤ k → takeHexUpTo k hs = (hs, []) := by
  intro hs
  induction hs with
  | nil => intro k _ _; cases k <;> rfl
  | cons c t ih =>
    intro k hall hlen
    simp only [List.all_cons, Bool.and_eq_true] at hall
    cases k with
    | zero => simp at hlen
    | succ k =>
      simp only [takeHexUpTo, if_pos hall.1]
      rw [ih k hall.2 (by simpa using hlen)]

lemma ipv6MatchAt_sound (cs tok rest : List Char)
    (h : ipv6MatchAt cs = some (tok, rest)) : ipv6Exact4 tok = true := by
  unfold ipv6MatchAt at h
  cases h1 : stripLit pre6 cs with
  | none => rw [h1] at h; simp at h
  | some r1 =>
    rw [h1] at h
    simp only at h
    cases h2 : matchHex 4 r1 with
    | none => rw [h2] at h; simp at h
    | some q =>
      rcases q with ⟨h4, r2⟩
      rw [h2] at h
      simp only at h
      cases h3 : stripLit mid6 r2 with
      | none => rw [h3] at h; simp at h
      | some r3 =>
        rw [h3] at h
        simp only at h
        split at h
        · simp at h
        · rename_i hne
          simp only [Option.some.injEq, Prod.mk.injEq] at h
          obtain ⟨htok, hrest⟩ := h
          subst htok
          obtain ⟨hlen4, hall4, _⟩ := matchHex_sound 4 r1 h4 r2 h2
          obtain ⟨hlen3, hall3, _⟩ := takeHex_sound 3 r3
          have e0 : pre6 ++ h4 ++ mid6 ++ (takeHexUpTo 3 r3).1 =
              pre6 ++ (h4 ++ (mid6 ++ (takeHexUpTo 3 r3).1)) := by
            simp [List.append_assoc]
          have e2 : matchHex 4 (h4 ++ (mid6 ++ (takeHexUpTo 3 r3).1)) =
              some (h4, mid6 ++ (takeHexUpTo 3 r3).1) := by
            rw [← hlen4]
            exact matchHex_of_prefix h4 _ hall4
          simp only [ipv6Exact4, e0, stripLit_append, e2, Bool.and_eq_true,
            decide_eq_true_eq]
          exact ⟨⟨hne, hlen3⟩, hall3⟩

lemma ipv6MatchAt_assemble (h4 hs : List Char) (hlen4 : h4.length = 4)
    (hall4 : h4.all isHexChar = true) (hne : hs ≠ []) (hlen : hs.length ≤ 3)
    (hall : hs.all isHexChar = true) :
    ipv6MatchAt (ipv6Assemble h4 hs) = some (ipv6Assemble h4 hs, []) := by
  have e0 : ipv6Assemble h4 hs = pre6 ++ (h4 ++ (mid6 ++ hs)) := by
    simp [ipv6Assemble, List.append_assoc]
  have e2 : matchHex 4 (h4 ++ (mid6 ++ hs)) = some (h4, mid6 ++ hs) := by
    rw [← hlen4]
    exact matchHex_of_prefix h4 _ hall4
  have e4 : takeHexUpTo 3 hs = (hs, []) := takeHex_exact hs 3 hall hlen
  rw [e0]
  simp only [ipv6MatchAt, stripLit_append, e2, e4]
  rw [if_neg hne]
  simp [List.append_assoc]

lemma scanAux_match {mf : Option Char → List Char → Option (List Char × List Char)}
    {prev : Option Char} {cs tok rest : List Char} {k : Nat}
    (hm2 : mf prev cs = some (tok, rest)) :
    scanAux mf (k + 1) prev cs = tok :: scanAux mf k tok.getLast? rest := by
  simp only [scanAux, hm2]

lemma scanAux_nil {mf : Option Char → List Char → Option (List Char × List Char)}
    (hnil : ∀ prev, mf prev [] = none) :
    ∀ (k : Nat) (prev : Option Char), scanAux mf k prev [] = [] := by
  intro k prev
  cases k with
  | zero => rfl
  | succ k => simp only [scanAux, hnil]

lemma findIPv6_assemble (h4 hs : List Char) (hlen4 : h4.length = 4)
    (hall4 : h4.all isHexChar = true) (hne : hs ≠ []) (hlen : hs.length ≤ 3)
    (hall : hs.all isHexChar = true) :
    findIPv6 (ipv6Assemble h4 hs) = [ipv6Assemble h4 hs] := by
  have hm := ipv6MatchAt_assemble h4 hs hlen4 hall4 hne hlen hall
  rw [findIPv6, reFindall, scanAux_match hm,
    scanAux_nil fun _ => (by decide : ipv6MatchAt [] = none)]

lemma findIPv6_sound (line tok : List Char) (h : tok ∈ findIPv6 line) :
    ipv6Exact4 tok = true :=
  scanAux_sound (fun _ cs tok rest hm => ipv6MatchAt_sound cs tok rest hm)
    (line.length + 1) none line tok h

/-- The claim's IPv6 shape with a 3-hex-digit third group is not
extracted: `"2610:a1:4F2:128::7"` satisfies the claimed 1-to-4-digit
shape yet `re.findall` on that very line returns nothing, because the
pattern requires exactly four hex digits. -/
theorem ipv6_matcher_cex :
    ipv6Claim14 (("2610:a1:4F2:128::7").toList) = true ∧
    findIPv6 (("2610:a1:4F2:128::7").toList) = [] := by
  constructor
  · decide
  · decide

/-- Claim C1 (amended): the IPv6 scan extracts exactly the vendor
shape with `XXXX` being *exactly four* hex digits (and `Y` one to
three): every extracted token has that shape, a line consisting of
such a token yields exactly that token, `"2610:a1:04F2:128::7"` is
extracted and `"2001:db8::1"` is not. -/
theorem ipv6_matcher_spec :
    (∀ line tok, tok ∈ findIPv6 line → ipv6Exact4 tok = true) ∧
    (∀ h4 hs, h4.length = 4 → h4.all isHexChar = true → hs ≠ [] →
      hs.length ≤ 3 → hs.all isHexChar = true →
      findIPv6 (ipv6Assemble h4 hs) = [ipv6Assemble h4 hs]) ∧
    findIPv6 (("2610:a1:04F2:128::7").toList) =
      [("2610:a1:04F2:128::7").toList] ∧
    findIPv6 (("2001:db8::1").toList) = [] :=
  ⟨findIPv6_sound,
   fun h4 hs h1 h2 h3 h5 h6 => findIPv6_assemble h4 hs h1 h2 h3 h5 h6,
   by decide, by decide⟩

theorem ipv6_matcher_spec_witness :
    ipv6Exact4 (("2610:a1:04F2:128::7").toList) = true ∧
    findIPv6 (ipv6Assemble (("04F2").toList) (("7").toList)) =
      [ipv6Assemble (("04F2").toList) (("7").toList)] :=
  ⟨ipv6_matcher_spec.1 (("2610:a1:04F2:128::7").toList)
     (("2610:a1:04F2:128::7").toList) (by decide),
   ipv6_matcher_spec.2.1 (("04F2").toList) (("7").toList) (by decide)
     (by decide) (by decide) (by decide) (by decide)⟩

/-!
## Claims C3 and C4: the page locator and the fallback
-/

lemma listMatchAt_iff : ∀ (n h : List Char), listMatchAt n h = true ↔ n <+: h := by
  intro n
  induction n with
  | nil => intro h; simp [listMatchAt]
  | cons a as ih =>
    intro h
    rcases h with _ | ⟨b, bs⟩
    · simp [listMatchAt]
    · simp only [listMatchAt, Bool.and_eq_true, decide_eq_true_eq, ih bs,
        List.cons_prefix_cons]

lemma containsSub_iff (n : List Char) :
    ∀ h : List Char, containsSub n h = true ↔ n <:+: h := by
  intro h
  induction h with
  | nil =>
    simp only [containsSub, listMatchAt_iff]
    simp
  | cons c t ih =>
    by_cases hm : listMatchAt n (c :: t) = true
    · simp only [containsSub, if_pos hm]
      constructor
      · intro _
        exact List.IsPrefix.isInfix ((listMatchAt_iff n (c :: t)).mp hm)
      · intro _
        trivial
    · simp only [containsSub, if_neg hm]
      rw [ih, List.infix_cons_iff]
      constructor
      · exact fun hi => Or.inr hi
      · rintro (hp | hi)
        · exact absurd ((listMatchAt_iff n (c :: t)).mpr hp) hm
        · exact hi

lemma containsSub_trans {a b c : List Char} (h1 : containsSub a b = true)
    (h2 : containsSub b c = true) : containsSub a c = true :=
  (containsSub_iff a c).mpr
    (((containsSub_iff a b).mp h1).trans ((containsSub_iff b c).mp h2))

lemma containsSub_nil {n : List Char} (h : n ≠ []) : containsSub n [] = false := by
  rcases n with _ | ⟨c, t⟩
  · exact absurd rfl h
  · rfl

lemma findLoop_char (texts : List (List Char)) (term : List Char) :
    ∀ (k : Nat) (a : Int) (acc : List Int), 0 ≤ a → a.toNat + k ≤ texts.length →
      findLoop (texts.map some) term (intRangeAux k a) acc =
        .ok (acc ++ ((List.range' a.toNat k).filter (pageMatches texts term)).map
          (fun n => Int.ofNat n + 1)) := by
  intro k
  induction k with
  | zero => intro a acc _ _; simp [intRangeAux, findLoop, List.range']
  | succ k ih =>
    intro a acc ha hbound
    have hlt : a.toNat < texts.length := by omega
    have ht : texts.get? a.toNat = some (texts.get ⟨a.toNat, hlt⟩) :=
      List.get?_eq_get hlt
    have hnn : ¬(a < 0) := by omega
    simp only [intRangeAux, findLoop, if_neg hnn, List.get?_map, ht,
      Option.map_some']
    rw [ih (a + 1) _ (by omega) (by omega)]
    have hpm : pageMatches texts term a.toNat =
        containsSub (lowerStr term) (lowerStr (texts.get ⟨a.toNat, hlt⟩)) := by
      simp only [pageMatches, ht]
    have hcast : Int.ofNat a.toNat = a := by
      rw [Int.ofNat_eq_coe]
      omega
    have hsucc : (a + 1).toNat = a.toNat + 1 := by omega
    rw [List.range'_succ, hsucc]
    by_cases hct :
        containsSub (lowerStr term) (lowerStr (texts.get ⟨a.toNat, hlt⟩)) = true
    · rw [if_pos hct, List.filter_cons_of_pos (by rw [hpm]; exact hct)]
      simp only [List.map_cons, hcast]
      simp
    · rw [if_neg hct, List.filter_cons_of_neg (by rw [hpm]; exact hct)]

lemma find_table_pages_none_eq (texts : List (List Char)) (term : List Char) :
    find_table_pages (texts.map some) term 1 none =
      matchingPages texts term texts.length := by
  unfold find_table_pages find_table_pagesE intRangeICO
  dsimp only
  rw [show ((((texts.map some).length : Int)) - (1 - 1)).toNat = texts.length by
    simp]
  rw [findLoop_char texts term texts.length (1 - 1) [] (by omega) (by omega)]
  rw [show (((1 : Int) - 1)).toNat = 0 by rfl]
  simp [matchingPages, List.range_eq_range']

lemma find_table_pages_some_eq (texts : List (List Char)) (term : List Char)
    (e : Int) :
    find_table_pages (texts.map some) term 1 (some e) =
      matchingPages texts term (min e ((texts.length : Int))).toNat := by
  unfold find_table_pages find_table_pagesE intRangeICO
  dsimp only
  rw [show ((min e (((texts.map some).length : Int))) - (1 - 1)).toNat =
      (min e ((texts.length : Int))).toNat by simp]
  rw [findLoop_char texts term (min e ((texts.length : Int))).toNat (1 - 1) []
    (by omega) (by omega)]
  rw [show (((1 : Int) - 1)).toNat = 0 by rfl]
  simp [matchingPages, List.range_eq_range']

lemma docC3_find_empty (term : List Char) (h : lowerStr term ≠ []) :
    find_table_pages (docC3texts.map some) term 1 (some 300) = [] := by
  rw [find_table_pages_some_eq]
  have hb : (min (300 : Int) ((docC3texts.length : Int))).toNat = 300 := by
    have hlen : docC3texts.length = 301 := by
      unfold docC3texts
      rw [List.length_append, List.length_replicate]
      rfl
    rw [hlen]
    rfl
  rw [hb]
  unfold matchingPages
  have hf : ∀ n ∈ List.range 300, ¬(pageMatches docC3texts term n = true) := by
    intro n hn hpm
    have hn300 : n < 300 := List.mem_range.mp hn
    have hget : docC3texts.get? n = some [] := by
      unfold docC3texts
      rw [List.get?_append (by rw [List.length_replicate]; exact hn300)]
      rw [List.get?_eq_get (by rw [List.length_replicate]; exact hn300)]
      rw [List.get_replicate]
    simp only [pageMatches, hget] at hpm
    rw [show lowerStr ([] : List Char) = [] from rfl] at hpm
    rw [containsSub_nil h] at hpm
    exact Bool.false_ne_true hpm
  rw [List.filter_eq_nil.mpr hf]
  rfl

/-- Page 301 of `docC3texts` contains the first search phrase, yet the
pipeline's capped scan (pages 1..300) misses it and every phrase comes
back empty. -/
theorem page_locator_cex :
    pageMatches docC3texts searchPhrase1 300 = true ∧
    find_table_pages (docC3texts.map some) searchPhrase1 1 (some 300) = [] ∧
    pipelineTablePages (docC3texts.map some) = [] := by
  refine ⟨by decide, docC3_find_empty searchPhrase1 (by decide), ?_⟩
  unfold pipelineTablePages
  rw [docC3_find_empty searchPhrase1 (by decide),
    docC3_find_empty searchPhrase2 (by decide),
    docC3_find_empty searchPhrase3 (by decide)]
  simp

/-- Claim C3 (amended): with no end bound the locator returns exactly
the 1-indexed pages whose text contains the phrase case-insensitively,
over the whole document; as invoked by the pipeline the scan is capped
at page 300; the pipeline tries the three phrases in order and keeps
the first non-empty page set. -/
theorem page_locator_spec (texts : List (List Char)) (term : List Char) :
    find_table_pages (texts.map some) term 1 none =
      matchingPages texts term texts.length ∧
    find_table_pages (texts.map some) term 1 (some 300) =
      matchingPages texts term (min 300 texts.length) ∧
    pipelineTablePages (texts.map some) =
      (if find_table_pages (texts.map some) searchPhrase1 1 (some 300) = [] then
        if find_table_pages (texts.map some) searchPhrase2 1 (some 300) = [] then
          find_table_pages (texts.map some) searchPhrase3 1 (some 300)
        else find_table_pages (texts.map some) searchPhrase2 1 (some 300)
      else find_table_pages (texts.map some) searchPhrase1 1 (some 300)) := by
  refine ⟨find_table_pages_none_eq texts term, ?_, rfl⟩
  rw [find_table_pages_some_eq]
  congr 1
  omega

/-- Claim C4: when no page of the document contains `"probe"`
case-insensitively (hence none of the three search phrases), the
pipeline extracts from the fixed `"202-203"` fallback range instead of
failing, and the page loop skips out-of-range page numbers and keeps
going. -/
theorem fallback_spec (texts : List (List Char))
    (h : ∀ t ∈ texts, containsSub (("probe").toList) (lowerStr t) = false) :
    pipelineExtract (texts.map some) =
      extract_ip_probes (texts.map some) (PagesArg.str (("202-203").toList)) ∧
    ∀ (doc : List (Option (List Char))) (ns : List Int) (st : EState) (n : Int),
      ((doc.length : Int) ≤ n ∨ n < 0) →
      pagesLoop doc (n :: ns) st = pagesLoop doc ns st := by
  constructor
  · have hfind : ∀ term : List Char,
        containsSub (("probe").toList) (lowerStr term) = true →
        find_table_pages (texts.map some) term 1 (some 300) = [] := by
      intro term hterm
      rw [find_table_pages_some_eq]
      unfold matchingPages
      have hf : ∀ n ∈ List.range (min (300 : Int) ((texts.length : Int))).toNat,
          ¬(pageMatches texts term n = true) := by
        intro n _ hpm
        cases ht : texts.get? n with
        | none =>
          simp only [pageMatches, ht] at hpm
          exact Bool.false_ne_true hpm
        | some t =>
          simp only [pageMatches, ht] at hpm
          have htm : t ∈ texts := List.get?_mem ht
          have hp2 : containsSub (("probe").toList) (lowerStr t) = true :=
            containsSub_trans hterm hpm
          rw [h t htm] at hp2
          exact Bool.false_ne_true hp2
      rw [List.filter_eq_nil.mpr hf]
      rfl
    unfold pipelineExtract pipelineTablePages
    rw [hfind searchPhrase1 (by decide), hfind searchPhrase2 (by decide),
      hfind searchPhrase3 (by decide)]
    simp
  · intro doc ns st n hn
    simp only [pagesLoop]
    rw [if_pos hn]

theorem fallback_spec_witness :
    pipelineExtract [some (("hello").toList)] =
      extract_ip_probes [some (("hello").toList)]
        (PagesArg.str (("202-203").toList)) ∧
    pagesLoop ([] : List (Option (List Char))) [0] initState =
      pagesLoop ([] : List (Option (List Char))) [] initState :=
  ⟨(fallback_spec [(("hello").toList)] (by decide)).1,
   (fallback_spec [(("hello").toList)] (by decide)).2 [] [] initState 0
     (Or.inl (by simp))⟩

theorem normalize_region_name_spec_witness :
    normalize_region_name ['A', enDash, 'B'] =
      (['A', enDash, 'B'].map swapDash) ∧ swapDash 'P' = 'P' :=
  ⟨(normalize_region_name_spec ['A', enDash, 'B']).1,
   (normalize_region_name_spec []).2.1 'P' (by decide) (by decide)⟩
